import Mathlib

/-
Verification of the catalog retrieval and reference-resolution engine:
a shallow embedding of `src/leadership_button/sound_suggester.py`
(the `SoundSuggester` class) and of the SSML audio-reference resolver in
`src/leadership_button/api_client.py` (`_rewrite_ssml_audio_srcs` / `_resolve`).

Modelling conventions:
- Python floats are modelled as exact rationals (ℚ); all scores and
  thresholds in the source are small decimal literals, written here as
  exact fractions (0.3 = 3/10, …).
- CSV rows are records of strings; the `duration` column is modelled as
  `Option ℚ` (`none` = missing/unparsable, which `float(... or 0)` plus the
  `except` branch turn into `0.0`; `durOf` applies the same defaulting).
- Environment capabilities that Python discovers by `import` probing
  (rapidfuzz, sentence-transformers+numpy+sidecar) are a `Caps` record of
  optional oracle functions: `fuzz` abstracts the `partial_ratio` bonus
  loop (whose scan order over a Python `set` is interpreter-dependent), and
  `emb` abstracts query/row embedding plus cosine similarity.
- Python's stable `list.sort(key=..., reverse=True)` is modelled with
  `List.insertionSort` under the relation "left score is ≥ right score",
  which is a stable descending sort, the observable semantics of the
  source's sort.
- `logging` and `time.time()` calls do not feed into any returned value and
  are dropped.
-/

namespace LeadershipButton

/-! ### Character classes and low-level string helpers -/

/-- Python `str` whitespace characters relevant to `.strip()`/`.split()`
(ASCII subset; catalog data is ASCII). -/
def isWsChar (c : Char) : Bool :=
  c == ' ' || c == '\t' || c == '\n' || c == '\r' || c == Char.ofNat 11 || c == Char.ofNat 12

/-- Characters matching the regex class `[a-z0-9]` (`a`–`z` is 97–122,
`0`–`9` is 48–57). -/
def isLowDigit (c : Char) : Bool :=
  (97 ≤ c.toNat && c.toNat ≤ 122) || (48 ≤ c.toNat && c.toNat ≤ 57)

/-- ASCII lowercasing of one character (Python `str.lower` on ASCII data;
`A`–`Z` is 65–90, shifted by 32 to `a`–`z`). -/
def lowCh (c : Char) : Char :=
  if 65 ≤ c.toNat && c.toNat ≤ 90 then Char.ofNat (c.toNat + 32) else c

/-- Python `str.lower()`. -/
def lowerStr (s : String) : String := String.mk (s.toList.map lowCh)

/-- Python `str.strip()` on a character list. -/
def stripL (l : List Char) : List Char :=
  ((l.dropWhile isWsChar).reverse.dropWhile isWsChar).reverse

/-- Python `str.strip()`. -/
def pyStrip (s : String) : String := String.mk (stripL s.toList)

/-- Tests whether `a` is a prefix of `b` (on character lists). -/
def isPrefixL : List Char → List Char → Bool
  | [], _ => true
  | _ :: _, [] => false
  | a :: as, b :: bs => a == b && isPrefixL as bs

/-- Python's substring test `needle in hay` (on character lists). -/
def hasSubL (n : List Char) : List Char → Bool
  | [] => isPrefixL n []
  | l@(_ :: rest) => isPrefixL n l || hasSubL n rest

/-- Python's substring containment `needle in hay`. -/
def containsSub (needle hay : String) : Bool := hasSubL needle.toList hay.toList

/-- First index (in `hay`) where `needle` occurs, Python `str.find` made total. -/
def findSubAux (needle : List Char) : List Char → ℕ → Option ℕ
  | [], i => if needle.isEmpty then some i else none
  | l@(_ :: rest), i => if isPrefixL needle l then some i else findSubAux needle rest (i + 1)

/-- Remove a trailing `\.[a-z0-9]+` (the regex `re.sub(r"\.[a-z0-9]+$", "", ·)`):
a non-empty trailing `[a-z0-9]` run preceded by a dot is removed with it. -/
def dropExtL (l : List Char) : List Char :=
  match l.reverse.takeWhile isLowDigit, l.reverse.dropWhile isLowDigit with
  | _ :: _, '.' :: tail => tail.reverse
  | _, _ => l

/-- Remove a trailing `-[0-9]+` (the regex `re.sub(r"-[0-9]+$", "", ·)`). -/
def dropTrailDashDigits (l : List Char) : List Char :=
  match l.reverse.takeWhile Char.isDigit, l.reverse.dropWhile Char.isDigit with
  | _ :: _, '-' :: tail => tail.reverse
  | _, _ => l

/-- Whitespace splitting, Python `str.split()` (no empty pieces). -/
def splitWsAux : List Char → List Char → List String
  | [], cur => if cur.isEmpty then [] else [String.mk cur.reverse]
  | c :: rest, cur =>
    if isWsChar c then
      if cur.isEmpty then splitWsAux rest []
      else String.mk cur.reverse :: splitWsAux rest []
    else splitWsAux rest (c :: cur)

def splitWs (s : String) : List String := splitWsAux s.toList []

/-- Split on a separator character, Python `str.split(",")` (keeps empties). -/
def splitOnChar (sep : Char) : List Char → List Char → List String
  | [], cur => [String.mk cur.reverse]
  | c :: rest, cur =>
    if c == sep then String.mk cur.reverse :: splitOnChar sep rest []
    else splitOnChar sep rest (c :: cur)

/-- Python `" ".join(l)`. -/
def joinSpace : List String → String
  | [] => ""
  | [s] => s
  | s :: rest => s ++ " " ++ joinSpace rest

/-- Lexicographic comparison of strings by code point (Python `<=` on `str`). -/
def charListLe : List Char → List Char → Bool
  | [], _ => true
  | _ :: _, [] => false
  | a :: as, b :: bs => if a == b then charListLe as bs else decide (a < b)

/-! ### Tokenizer (`_tokens`, `_filename_tokens`, `_jaccard` in sound_suggester.py) -/

def STOPWORDS : List String :=
  ["the", "a", "an", "and", "or", "to", "of", "in", "on", "for", "with", "at",
   "from", "by", "is", "it", "that", "this", "was", "are", "be"]

/-- Naive plural stripping: `t[:-1] if t.endswith("s") and len(t) > 3 else t`. -/
def pluralStrip (t : String) : String :=
  match t.toList.reverse with
  | 's' :: _ => if 3 < t.toList.length then String.mk t.toList.dropLast else t
  | _ => t

/-- The `_tokens` helper: lowercase, map `[^a-z0-9\s]` to space, split, drop
stopwords, strip plural `s`. -/
def tokensStr (text : String) : List String :=
  let tl := (text.toList.map lowCh).map fun c => if isLowDigit c || isWsChar c then c else ' '
  ((splitWsAux tl []).filter fun t => t != "" && !(STOPWORDS.contains t)).map pluralStrip

/-- The `_filename_tokens` helper. -/
def filenameTokensStr (filename : String) : List String :=
  let name := filename.toList.map lowCh
  let name := dropExtL name
  let name := if isPrefixL "mixkit-".toList name then name.drop 7 else name
  let name := dropTrailDashDigits name
  let name := name.map fun c => if c == '_' || c == '-' then ' ' else c
  tokensStr (String.mk name)

/-- The `_jaccard` similarity of two term sets. -/
def jaccardF (a b : Finset String) : ℚ :=
  if a = ∅ ∨ b = ∅ then 0 else ((a ∩ b).card : ℚ) / ((a ∪ b).card : ℚ)

/-! ### Data model -/

/-- One CSV catalog row (columns used by the engine; absent fields are `""`,
`duration` is `none` when missing or unparsable). -/
structure Row where
  filename : String := ""
  audio_type : String := ""
  kit_title : String := ""
  kit_tags : String := ""
  kit_category : String := ""
  duration : Option ℚ := none
  google_cloud_url : String := ""
  file_path : String := ""
  source_directory : String := ""
deriving DecidableEq, Repr

/-- Duration parsing, `float(r.get("duration", 0) or 0)` with the surrounding
`try/except`. -/
def durOf (r : Row) : ℚ := r.duration.getD 0

/-- True exactly when `_safe_lower(r.get("audio_type", "")) == "song"`. -/
def isSong (r : Row) : Bool := lowerStr r.audio_type == "song"

/-- The intent dictionary fed to `suggest` (first 6 pieces are used;
a piece is a `(name, description)` pair). -/
structure Intent where
  request : String := ""
  tone : String := ""
  context : String := ""
  pieces : List (String × String) := []

/-- Output record built by `_select_diverse`. -/
structure SuggestionRecord where
  filename : String
  display_title : String
  type : String
  tags : String
  duration : ℚ
  url : String
  category : String
deriving DecidableEq, Repr

/-- Environment capabilities discovered by `import` probing in the source.
`fuzz` abstracts the rapidfuzz `partial_ratio` bonus count (per-row, given
the query term list and the row's term set); `emb` abstracts
sentence-transformer encoding + sidecar lookup + cosine similarity. -/
structure Caps where
  fuzz : Option (List String → Finset String → ℕ) := none
  emb : Option (String → Row → ℚ) := none

/-! ### QueryBuilder (`_build_query`, `_rule_expand`) -/

def ruleExpand (tset : List String) (tone : String) : List String :=
  (if ["rain", "storm", "cloud"].any tset.contains || containsSub "gentle" tone then
    ["rain", "drizzle", "soft_thunder"] else [])
  ++ (if ["night", "sleep", "bedtime", "moon"].any tset.contains then
    ["night", "cricket", "lullaby", "soft_piano"] else [])
  ++ (if ["castle", "cave", "dragon"].any tset.contains then
    ["wind", "fire", "wing", "cavern", "drip"] else [])
  ++ (if containsSub "gentle" tone then ["soft_piano", "lullaby", "pads", "ambient"] else [])
  ++ (if containsSub "upbeat" tone then ["kids", "happy", "ukulele", "pop"] else [])
  ++ (if containsSub "serious" tone then ["calm", "ambient"] else [])

def sortStrings (l : List String) : List String :=
  l.insertionSort fun a b => charListLe a.toList b.toList = true

/-- The `_build_query` method: returns (palette terms, query text, target
music, target sfx).
The Python term `set` is modelled as a deduplicated list; its iteration
order (interpreter hash order) is abstracted by the `Caps.fuzz` oracle,
the only order-sensitive consumer. -/
def buildQuery (intent : Intent) : List String × String × ℕ × ℕ :=
  let request := lowerStr intent.request
  let tone := lowerStr intent.tone
  let ctx := intent.context
  let t0 := (tokensStr ctx ++
    (intent.pieces.take 6).foldr (fun p acc => tokensStr p.1 ++ tokensStr p.2 ++ acc) []).dedup
  let expanded := ruleExpand t0 tone
  let terms := (t0 ++ expanded).dedup
  let query_text := "request:" ++ request ++ " tone:" ++ tone ++ " context:" ++ ctx ++
    " terms:" ++ joinSpace (sortStrings terms)
  let targets : ℕ × ℕ :=
    if request = "story" then (14, 6) else if request = "advice" then (10, 10) else (12, 8)
  (terms, query_text, targets.1, targets.2)

/-! ### Prefilter (`_prefilter`) -/

def DENY_TAGS : List String :=
  ["gun", "gunshot", "weapon", "horror", "scream", "blood", "violence"]

/-- The safety gate: some denylisted term occurs in the space-joined
lowercased filename/title/tags/category. -/
def denyHit (r : Row) : Bool :=
  let hay := joinSpace
    [lowerStr r.filename, lowerStr r.kit_title, lowerStr r.kit_tags, lowerStr r.kit_category]
  DENY_TAGS.any fun bad => containsSub bad hay

/-- The duration gate (a row survives iff this is true). -/
def durationGate (r : Row) : Bool :=
  let dur := durOf r
  if isSong r then decide (8 ≤ dur ∧ dur ≤ 90) else decide (1/5 ≤ dur ∧ dur ≤ 10)

/-- A row survives both the safety gate and the duration gate. -/
def prefilterKeep (r : Row) : Bool := !(denyHit r) && durationGate r

/-- The `item_terms` set for one row, identical in `_prefilter` and `_rerank`. -/
def itemTermsOf (r : Row) : Finset String :=
  let fn := lowerStr r.filename
  let title := lowerStr r.kit_title
  let tags := lowerStr r.kit_tags
  let cat := lowerStr r.kit_category
  (tokensStr title).toFinset ∪ (filenameTokensStr fn).toFinset ∪ (tokensStr tags).toFinset ∪
    (if cat = "" then ∅ else {cat})

/-- The lexical prefilter score `overlap + 0.25 * fuzzy_bonus`. -/
def prefilterScore (caps : Caps) (terms : List String) (tset : Finset String) (r : Row) : ℚ :=
  let overlap := ((itemTermsOf r) ∩ tset).card
  let fuzzy : ℕ := match caps.fuzz with
    | none => 0
    | some f => if terms.isEmpty then 0 else f terms (itemTermsOf r)
  (overlap : ℚ) + (1/4) * (fuzzy : ℚ)

/-- Descending-by-score ordering on scored rows; with a stable sort this is
the observable behaviour of `cands.sort(key=lambda x: x[0], reverse=True)`. -/
def descLE : (ℚ × Row) → (ℚ × Row) → Prop := fun a b => b.1 ≤ a.1

instance : DecidableRel descLE := fun a b => inferInstanceAs (Decidable (b.1 ≤ a.1))

instance : IsTotal (ℚ × Row) descLE :=
  ⟨fun a b => (le_total b.1 a.1).elim Or.inl Or.inr⟩

instance : IsTrans (ℚ × Row) descLE :=
  ⟨fun _ _ _ h1 h2 => le_trans h2 h1⟩

/-- The loop body of `_prefilter` for one row: gate, score, keep when
`score > 0 or not tset`. -/
def prefilterEntry (caps : Caps) (terms : List String) (tset : Finset String) (r : Row) :
    Option (ℚ × Row) :=
  if prefilterKeep r then
    if 0 < prefilterScore caps terms tset r ∨ tset = ∅ then
      some (prefilterScore caps terms tset r, r)
    else none
  else none

/-- The `_prefilter` method: gate, score, keep when `score > 0 or not tset`, sort
descending (stably), truncate to 300. -/
def prefilter (caps : Caps) (rows : List Row) (terms : List String) : List Row :=
  let cands := rows.filterMap (prefilterEntry caps terms terms.toFinset)
  ((cands.insertionSort descLE).take 300).map Prod.snd

/-! ### Reranker (`_rerank`, `_duration_fit`) -/

def durationFit (dur : ℚ) (is_music : Bool) : ℚ :=
  if dur ≤ 0 then 0
  else if is_music then
    if dur < 12 ∨ 45 < dur then 0 else max 0 (1 - |dur - 25| / 13)
  else
    if dur < 1/2 ∨ 3 < dur then 0 else max 0 (1 - |dur - 3/2| / 1)

def toneFit (r : Row) : ℚ :=
  if lowerStr r.kit_category ∈ (["ambient", "kids", "calm", "lullaby"] : List String)
  then 1/2 else 0

/-- The reranker base score `0.3·overlapNorm + 0.15·durationFit + 0.05·toneFit`. -/
def baseScoreOf (terms : List String) (r : Row) : ℚ :=
  let tset := terms.toFinset
  let overlap := ((itemTermsOf r) ∩ tset).card
  (3/10) * ((overlap : ℚ) / (max tset.card 1 : ℕ)) +
    (3/20) * durationFit (durOf r) (isSong r) + (1/20) * toneFit r

/-- The base-scored candidate list, in candidate (prefilter) order. -/
def baseList (terms : List String) (cands : List Row) : List (ℚ × Row) :=
  cands.map fun r => (baseScoreOf terms r, r)

/-- The embedding-enriched list (`final_score = 0.5·sim + base_score`),
still in candidate order, before sorting. -/
def enrichedList (f : String → Row → ℚ) (qtext : String) (terms : List String)
    (cands : List Row) : List (ℚ × Row) :=
  (baseList terms cands).map fun p => ((1/2) * f qtext p.2 + p.1, p.2)

/-- The `_rerank` method: without an embedding capability the base list is returned
as-is (the source sorts only the enriched path).  The source's tuples carry a
third `meta` dict of logging features that no downstream consumer reads
(`_select_diverse` destructures and discards it), so entries are modelled as
(score, row) pairs. -/
def rerank (caps : Caps) (cands : List Row) (qtext : String) (terms : List String) :
    List (ℚ × Row) :=
  match caps.emb with
  | none => baseList terms cands
  | some f => (enrichedList f qtext terms cands).insertionSort descLE

/-! ### DiversitySelector (`_select_diverse`, `_mmr_pick`, `_item_sim`) -/

def tagFnTerms (r : Row) : Finset String :=
  (tokensStr r.kit_tags).toFinset ∪ (filenameTokensStr r.filename).toFinset

def itemSim (a b : Row) : ℚ :=
  (3/5) * jaccardF (tagFnTerms a) (tagFnTerms b) +
    (2/5) * (if lowerStr a.kit_category = lowerStr b.kit_category then 1 else 0)

def simMax (r : Row) (selected : List (ℚ × Row)) : ℚ :=
  selected.foldl (fun m s => if m < itemSim r s.2 then itemSim r s.2 else m) 0

def mmrVal (t : ℚ × Row) (selected : List (ℚ × Row)) : ℚ :=
  (4/5) * t.1 - (1/5) * simMax t.2 selected

/-- Index of the first item with strictly maximal MMR value, starting from
the sentinel `-1e9` (none when no item strictly beats the sentinel). -/
def bestIdx (selected items : List (ℚ × Row)) : Option ℕ :=
  (items.enum.foldl (fun best p =>
    let m := mmrVal p.2 selected
    if best.2 < m then (some p.1, m) else best) ((none : Option ℕ), (-1000000000 : ℚ))).1

/-- The greedy MMR loop; each round pops the chosen item from `items`.
The source's `used` id-set never skips anything because chosen items are
popped, so it is not modelled. -/
def mmrLoop : ℕ → List (ℚ × Row) → List (ℚ × Row) → List (ℚ × Row)
  | 0, sel, _ => sel
  | fuel + 1, sel, items =>
    if items.isEmpty then sel
    else match bestIdx sel items with
      | none => sel
      | some i => match items[i]? with
        | none => sel
        | some chosen => mmrLoop fuel (sel ++ [chosen]) (items.eraseIdx i)

def mmrPick (items : List (ℚ × Row)) (k : ℕ) : List Row :=
  (mmrLoop k [] items).map Prod.snd

/-- The rows selected by `_select_diverse` before output shaping:
per-type MMR picks, then score-order backfill, truncated to `limit`. -/
def selectRows (ranked : List (ℚ × Row)) (target_music target_sfx limit : ℕ) : List Row :=
  let music := ranked.filter fun t => isSong t.2
  let sfx := ranked.filter fun t => !(isSong t.2)
  let picks0 := mmrPick music target_music ++ mmrPick sfx target_sfx
  let picks := if picks0.length < limit then
      picks0 ++
        ((ranked.filter fun t => !(decide (t.2 ∈ picks0))).take (limit - picks0.length)).map
          Prod.snd
    else picks0
  picks.take limit

/-- Python `os.path.splitext(s)[0]`. -/
def splitextStem (s : String) : String :=
  let l := s.toList
  let after := l.reverse.takeWhile fun c => c != '.'
  if after.length = l.length then s
  else
    let stemLen := l.length - after.length - 1
    if (l.take stemLen).any (fun c => c != '.') then String.mk (l.take stemLen) else s

/-- The bucket-folder fallback URL used by `_select_diverse` when a row has
no `google_cloud_url`. -/
def guessUrl (filename : String) : String :=
  let fnl := lowerStr filename
  let folder := if containsSub "mixkit" fnl then "mixkit"
    else if containsSub "filmcow" fnl then "filmcow" else "google"
  "https://storage.googleapis.com/cwsounds/" ++ folder ++ "/" ++ filename

def urlOfRow (r : Row) : String :=
  if r.google_cloud_url ≠ "" then r.google_cloud_url else guessUrl r.filename

/-- Output shaping of one selected row. -/
def shape (r : Row) : SuggestionRecord :=
  { filename := r.filename
    display_title := if r.kit_title ≠ "" then r.kit_title else splitextStem r.filename
    type := if isSong r then "music" else "sfx"
    tags := r.kit_tags
    duration := durOf r
    url := urlOfRow r
    category := r.kit_category }

def selectDiverse (ranked : List (ℚ × Row)) (target_music target_sfx limit : ℕ) :
    List SuggestionRecord :=
  (selectRows ranked target_music target_sfx limit).map shape

/-! ### The public `suggest` pipeline -/

/-- The rows underlying one `suggest()` result, in result order. -/
def suggestRows (rows : List Row) (caps : Caps) (intent : Intent) (limit : ℕ) : List Row :=
  let q := buildQuery intent
  let cands := prefilter caps rows q.1
  let ranked := rerank caps cands q.2.1 q.1
  selectRows ranked q.2.2.1 q.2.2.2 limit

/-- The public `SoundSuggester.suggest(intent, limit)`. -/
def suggest (rows : List Row) (caps : Caps) (intent : Intent) (limit : ℕ) :
    List SuggestionRecord :=
  (suggestRows rows caps intent limit).map shape

/-! ### ReferenceResolver (`_rewrite_ssml_audio_srcs` / `_resolve` in api_client.py)

The resolver reads the same catalog CSV.  A missing CSV file is modelled by
`none`; a loaded catalog by `some rows` (both the index build and the direct
fallback scan are guarded by `csv_path.exists()` in the source). -/

/-- The `_norm(s)` normalizer: strip, lower, drop one trailing extension,
map `-`/space to `_`,
collapse runs of `[^a-z0-9_]` to one `_`, collapse `_` runs, trim `_`. -/
def replDash (l : List Char) : List Char :=
  l.map fun c => if c == '-' || c == ' ' then '_' else c

/-- The regex pass `re.sub(r"[^a-z0-9_]+", "_", ·)` via a previous-was-bad flag. -/
def subNonAlnumAux : Bool → List Char → List Char
  | _, [] => []
  | prevBad, c :: rest =>
    if isLowDigit c || c == '_' then c :: subNonAlnumAux false rest
    else if prevBad then subNonAlnumAux true rest
    else '_' :: subNonAlnumAux true rest

def subNonAlnum (l : List Char) : List Char := subNonAlnumAux false l

/-- The regex pass `re.sub(r"_+", "_", ·)`. -/
def collapseUndAux : Bool → List Char → List Char
  | _, [] => []
  | prevUnd, c :: rest =>
    if c == '_' then
      if prevUnd then collapseUndAux true rest else '_' :: collapseUndAux true rest
    else c :: collapseUndAux false rest

def collapseUnd (l : List Char) : List Char := collapseUndAux false l

/-- Python `.strip("_")`. -/
def stripUnd (l : List Char) : List Char :=
  ((l.dropWhile fun c => c == '_').reverse.dropWhile fun c => c == '_').reverse

def normL (l : List Char) : List Char :=
  stripUnd (collapseUnd (subNonAlnum (replDash (dropExtL ((stripL l).map lowCh)))))

def normKey (s : String) : String := String.mk (normL s.toList)

/-- Percent-encoding of one UTF-8 byte for `urllib.parse.quote(·, safe="/")`:
unreserved `ALPHA / DIGIT / "_" / "." / "-" / "~"` plus the safe `/`. -/
def quoteByte (b : ℕ) : List Char :=
  if (48 ≤ b ∧ b ≤ 57) ∨ (65 ≤ b ∧ b ≤ 90) ∨ (97 ≤ b ∧ b ≤ 122) ∨
      b = 95 ∨ b = 46 ∨ b = 45 ∨ b = 126 ∨ b = 47 then
    [Char.ofNat b]
  else
    let hexDig := fun n => if n < 10 then Char.ofNat (48 + n) else Char.ofNat (55 + n)
    ['%', hexDig (b / 16), hexDig (b % 16)]

/-- UTF-8 bytes of one character. -/
def utf8Bytes (c : Char) : List ℕ :=
  let n := c.toNat
  if n < 128 then [n]
  else if n < 2048 then [192 + n / 64, 128 + n % 64]
  else if n < 65536 then [224 + n / 4096, 128 + (n / 64) % 64, 128 + n % 64]
  else [240 + n / 262144, 128 + (n / 4096) % 64, 128 + (n / 64) % 64, 128 + n % 64]

/-- Python `urllib.parse.quote(s, safe="/")`. -/
def pyQuote (s : String) : String :=
  String.mk ((s.toList.foldr (fun c acc => utf8Bytes c ++ acc) []).foldr
    (fun b acc => quoteByte b ++ acc) [])

/-- One value of the `_sound_url_index` map. -/
structure IdxEntry where
  url : String
  filename : String
  source_directory : String
deriving DecidableEq, Repr

/-- The URL stored for a row at index-build time: `google_cloud_url` when
present, else derived from the `"/public/sounds/"` anchor in `file_path`
(falling back to the bare filename) and percent-encoded. -/
def entryGcs (r : Row) : String :=
  let gcs := pyStrip r.google_cloud_url
  let filename := pyStrip r.filename
  if gcs = "" ∧ filename ≠ "" then
    let p := r.file_path.toList.map fun c => if c == '\\' then '/' else c
    let p := stripL p
    let relAnchor := match findSubAux "/public/sounds/".toList (p.map lowCh) 0 with
      | some i => (p.drop (i + 15))
      | none => []
    let rel := if relAnchor.isEmpty then filename else String.mk relAnchor
    "https://storage.googleapis.com/cwsounds/" ++ pyQuote rel
  else gcs

def entryFor (r : Row) : IdxEntry :=
  { url := entryGcs r
    filename := pyStrip r.filename
    source_directory := lowerStr (pyStrip r.source_directory) }

/-- The normalized keys one row contributes (filename, title, each tag);
the Python `set` order is irrelevant because all keys of a row map to the
same entry and insertion is guarded per key. -/
def rowKeyList (r : Row) : List String :=
  (if pyStrip r.filename ≠ "" then [normKey (pyStrip r.filename)] else []) ++
  (if pyStrip r.kit_title ≠ "" then [normKey (pyStrip r.kit_title)] else []) ++
  (if pyStrip r.kit_tags ≠ "" then
    ((splitOnChar ',' r.kit_tags.toList []).filterMap fun t =>
      if pyStrip t ≠ "" then some (normKey (pyStrip t)) else none)
   else [])

/-- Insert one key if non-empty and not already present (first writer wins). -/
def idxInsert (idx : List (String × IdxEntry)) (k : String) (e : IdxEntry) :
    List (String × IdxEntry) :=
  if k ≠ "" ∧ (idx.find? fun p => p.1 == k) = none then idx ++ [(k, e)] else idx

/-- The lazily built `_sound_url_index`, as an insertion-ordered
association list. -/
def buildIndex (rows : List Row) : List (String × IdxEntry) :=
  rows.foldl (fun idx r => (rowKeyList r).foldl (fun idx k => idxInsert idx k (entryFor r)) idx) []

def lookupIdx (idx : List (String × IdxEntry)) (k : String) : Option IdxEntry :=
  (idx.find? fun p => p.1 == k).map Prod.snd

/-- Token preprocessing in `_resolve`: strip, remove leading `@`s, strip. -/
def preprocessTok (token : String) : String :=
  let tok := pyStrip token
  if isPrefixL ['@'] tok.toList then
    String.mk (stripL (tok.toList.dropWhile fun c => c == '@'))
  else tok

def isHttpTok (tok : String) : Bool :=
  isPrefixL "http://".toList tok.toList || isPrefixL "https://".toList tok.toList

/-- The URL synthesized by the direct fallback scan for a matching row. -/
def fallbackUrl (r : Row) : String :=
  let fp := r.file_path.toList.map fun c => if c == '\\' then '/' else c
  let rel := match findSubAux "/public/sounds/".toList (fp.map lowCh) 0 with
    | some i => String.mk (fp.drop (i + 15))
    | none => r.filename
  "https://storage.googleapis.com/cwsounds/" ++ pyQuote rel

/-- The predicate of the direct fallback scan over raw catalog rows. -/
def fallbackMatch (stem : String) (tokLower : String) (r : Row) : Bool :=
  let fn := lowerStr r.filename
  fn != "" && (fn == tokLower || containsSub stem (normKey fn))

/-- The `_resolve(token)` closure: `catalog = none` models a missing CSV file (empty
index, no fallback scan). -/
def resolveTok (catalog : Option (List Row)) (token : String) : Option String :=
  let tok := preprocessTok token
  if isHttpTok tok then some tok
  else
    let idx := buildIndex (catalog.getD [])
    let key := normKey tok
    match lookupIdx idx key with
    | some e => some e.url
    | none =>
      let stem := normKey (String.mk (dropExtL tok.toList))
      match lookupIdx idx stem with
      | some e => some e.url
      | none =>
        match (if key ≠ "" then
            idx.find? fun p =>
              containsSub key p.1 || containsSub p.1 key ||
                containsSub stem p.1 || containsSub p.1 stem
          else none) with
        | some p => some p.2.url
        | none =>
          match catalog with
          | none => none
          | some rows =>
            match rows.find? (fallbackMatch stem (lowerStr tok)) with
            | some r => some (fallbackUrl r)
            | none => none

/-! ## General list lemmas -/

theorem perm_getElem_eraseIdx {α : Type} : ∀ (l : List α) (i : ℕ) (a : α),
    l[i]? = some a → l.Perm (a :: l.eraseIdx i)
  | [], i, a, h => by simp at h
  | b :: t, 0, a, h => by
    simp at h
    subst h
    simp [List.eraseIdx]
  | b :: t, i + 1, a, h => by
    simp only [List.getElem?_cons_succ] at h
    have ih := perm_getElem_eraseIdx t i a h
    simpa [List.eraseIdx] using (ih.cons b).trans (List.Perm.swap a b _)

theorem mem_of_getElemOpt {α : Type} {l : List α} {i : ℕ} {a : α} (h : l[i]? = some a) :
    a ∈ l := by
  obtain ⟨hi, rfl⟩ := List.getElem?_eq_some.mp h
  exact List.getElem_mem hi

/-- Mapping a `filterMap` with a function that tags each element with extra data:
the projections of the output form a sublist of the input. -/
theorem map_filterMap_sublist {α β : Type} (f : α → Option β) (g : β → α)
    (hf : ∀ a b, f a = some b → g b = a) :
    ∀ l : List α, List.Sublist ((l.filterMap f).map g) l
  | [] => by simp
  | a :: t => by
    rw [List.filterMap]
    cases hfa : f a with
    | none => exact (map_filterMap_sublist f g hf t).cons a
    | some b =>
      rw [List.map]
      rw [hf a b hfa]
      exact (map_filterMap_sublist f g hf t).cons₂ a

/-! ## Lemmas about the prefilter -/

theorem prefilterEntry_some {caps : Caps} {terms : List String} {tset : Finset String}
    {r : Row} {p : ℚ × Row} (h : prefilterEntry caps terms tset r = some p) :
    p.2 = r ∧ prefilterKeep r = true := by
  unfold prefilterEntry at h
  split at h
  · split at h
    · cases h
      exact ⟨rfl, by assumption⟩
    · cases h
  · cases h

theorem mem_prefilter {caps : Caps} {rows : List Row} {terms : List String} {r : Row}
    (h : r ∈ prefilter caps rows terms) : r ∈ rows ∧ prefilterKeep r = true := by
  unfold prefilter at h
  obtain ⟨p, hmem, rfl⟩ := List.mem_map.mp h
  have hmem' := List.take_subset _ _ hmem
  have hmem'' := (List.mem_insertionSort descLE).mp hmem'
  obtain ⟨a, ha, heq⟩ := List.mem_filterMap.mp hmem''
  obtain ⟨h2, hkeep⟩ := prefilterEntry_some heq
  rw [h2]
  exact ⟨ha, hkeep⟩

/-- The candidate rows form a sublist of the catalog rows (in particular,
distinct catalog rows yield distinct candidates). -/
theorem prefilter_rows_sublist (caps : Caps) (rows : List Row) (terms : List String) :
    ∃ mid : List Row, (prefilter caps rows terms).Sublist mid ∧ mid.Perm
      ((rows.filterMap (prefilterEntry caps terms terms.toFinset)).map Prod.snd) := by
  refine ⟨((rows.filterMap (prefilterEntry caps terms terms.toFinset)).insertionSort
    descLE).map Prod.snd, ?_, ?_⟩
  · exact ((List.take_sublist _ _).map Prod.snd)
  · exact (List.perm_insertionSort descLE _).map Prod.snd

theorem prefilter_rows_nodup {caps : Caps} {rows : List Row} {terms : List String}
    (h : rows.Nodup) : (prefilter caps rows terms).Nodup := by
  obtain ⟨mid, hsub, hperm⟩ := prefilter_rows_sublist caps rows terms
  have hbase : ((rows.filterMap (prefilterEntry caps terms terms.toFinset)).map
      Prod.snd).Nodup := by
    have := map_filterMap_sublist (prefilterEntry caps terms terms.toFinset) Prod.snd
      (fun a b hb => (prefilterEntry_some hb).1) rows
    exact this.nodup h
  exact hsub.nodup (hperm.nodup_iff.mpr hbase)

/-! ## Lemmas about the reranker -/

theorem rowsOf_baseList (terms : List String) (cands : List Row) :
    (baseList terms cands).map Prod.snd = cands := by
  simp [baseList, List.map_map, Function.comp_def]

theorem rowsOf_enrichedList (f : String → Row → ℚ) (qtext : String) (terms : List String)
    (cands : List Row) : (enrichedList f qtext terms cands).map Prod.snd = cands := by
  simp [enrichedList, baseList, List.map_map, Function.comp_def]

theorem rerank_rows_perm (caps : Caps) (cands : List Row) (qtext : String)
    (terms : List String) : ((rerank caps cands qtext terms).map Prod.snd).Perm cands := by
  unfold rerank
  cases caps.emb with
  | none => rw [rowsOf_baseList]
  | some f =>
    have h := (List.perm_insertionSort descLE (enrichedList f qtext terms cands)).map Prod.snd
    rwa [rowsOf_enrichedList] at h

theorem mem_rerank {caps : Caps} {cands : List Row} {qtext : String} {terms : List String}
    {t : ℚ × Row} (h : t ∈ rerank caps cands qtext terms) : t.2 ∈ cands := by
  have : t.2 ∈ (rerank caps cands qtext terms).map Prod.snd := List.mem_map_of_mem Prod.snd h
  exact (rerank_rows_perm caps cands qtext terms).mem_iff.mp this

/-! ## Lemmas about MMR selection -/

theorem mmrLoop_perm_step {n : ℕ}
    (ih : ∀ sel items : List (ℚ × Row), ∃ rest, (mmrLoop n sel items ++ rest).Perm (sel ++ items))
    {sel items : List (ℚ × Row)} {i : ℕ} {chosen : ℚ × Row} (hg : items[i]? = some chosen) :
    ∃ rest, (mmrLoop n (sel ++ [chosen]) (items.eraseIdx i) ++ rest).Perm (sel ++ items) := by
  obtain ⟨rest, hrest⟩ := ih (sel ++ [chosen]) (items.eraseIdx i)
  refine ⟨rest, hrest.trans ?_⟩
  rw [List.append_assoc]
  exact List.Perm.append_left sel (perm_getElem_eraseIdx items i chosen hg).symm

theorem mmrLoop_perm (fuel : ℕ) : ∀ (sel items : List (ℚ × Row)),
    ∃ rest, (mmrLoop fuel sel items ++ rest).Perm (sel ++ items) := by
  induction fuel with
  | zero => exact fun sel items => ⟨items, by simp [mmrLoop]⟩
  | succ n ih =>
    intro sel items
    rw [mmrLoop]
    split
    · exact ⟨items, by simp⟩
    · split
      · exact ⟨items, by simp⟩
      · split
        · exact ⟨items, by simp⟩
        · exact mmrLoop_perm_step ih (by assumption)

theorem mmrPick_perm (items : List (ℚ × Row)) (k : ℕ) :
    ∃ rest : List Row, (mmrPick items k ++ rest).Perm (items.map Prod.snd) := by
  obtain ⟨rest, h⟩ := mmrLoop_perm k [] items
  refine ⟨rest.map Prod.snd, ?_⟩
  have := h.map Prod.snd
  simpa [mmrPick, List.map_append] using this

theorem mem_mmrPick {items : List (ℚ × Row)} {k : ℕ} {r : Row} (h : r ∈ mmrPick items k) :
    r ∈ items.map Prod.snd := by
  obtain ⟨rest, hp⟩ := mmrPick_perm items k
  exact hp.mem_iff.mp (List.mem_append_left rest h)

theorem mmrPick_nodup {items : List (ℚ × Row)} {k : ℕ} (h : (items.map Prod.snd).Nodup) :
    (mmrPick items k).Nodup := by
  obtain ⟨rest, hp⟩ := mmrPick_perm items k
  exact ((hp.nodup_iff.mpr h).sublist (List.sublist_append_left _ _) : _)

/-! ## Lemmas about diversity selection and the whole pipeline -/

theorem tuple_mem_of_mem_rowsOf {l : List (ℚ × Row)} {r : Row} (h : r ∈ l.map Prod.snd) :
    ∃ s, (s, r) ∈ l := by
  obtain ⟨t, ht, rfl⟩ := List.mem_map.mp h
  exact ⟨t.1, by rwa [Prod.mk.eta]⟩

theorem mem_selectRows {ranked : List (ℚ × Row)} {tm ts limit : ℕ} {r : Row}
    (h : r ∈ selectRows ranked tm ts limit) : ∃ s, (s, r) ∈ ranked := by
  simp only [selectRows] at h
  have h' := List.take_subset _ _ h
  have hcase : r ∈ mmrPick (ranked.filter fun t => isSong t.2) tm ++
      mmrPick (ranked.filter fun t => !(isSong t.2)) ts ∨
      r ∈ ((ranked.filter fun t =>
        !(decide (t.2 ∈ mmrPick (ranked.filter fun t => isSong t.2) tm ++
          mmrPick (ranked.filter fun t => !(isSong t.2)) ts))).take
            (limit - (mmrPick (ranked.filter fun t => isSong t.2) tm ++
              mmrPick (ranked.filter fun t => !(isSong t.2)) ts).length)).map Prod.snd := by
    split at h'
    · rcases List.mem_append.mp h' with h1 | h2
      · exact Or.inl h1
      · exact Or.inr h2
    · exact Or.inl h'
  rcases hcase with h1 | h2
  · rcases List.mem_append.mp h1 with hm | hm <;>
    · obtain ⟨s, hs⟩ := tuple_mem_of_mem_rowsOf (mem_mmrPick hm)
      exact ⟨s, (List.mem_filter.mp hs).1⟩
  · obtain ⟨s, hs⟩ := tuple_mem_of_mem_rowsOf h2
    exact ⟨s, (List.mem_filter.mp (List.take_subset _ _ hs)).1⟩

theorem mem_suggestRows {rows : List Row} {caps : Caps} {intent : Intent} {limit : ℕ}
    {r : Row} (h : r ∈ suggestRows rows caps intent limit) :
    r ∈ rows ∧ prefilterKeep r = true := by
  simp only [suggestRows] at h
  obtain ⟨s, hs⟩ := mem_selectRows h
  exact mem_prefilter (mem_rerank hs)

theorem prefilterKeep_split {r : Row} (h : prefilterKeep r = true) :
    denyHit r = false ∧ durationGate r = true := by
  unfold prefilterKeep at h
  simpa using h

/-! ## Shared concrete data for witnesses -/

def capsNone : Caps := {}

def intent0 : Intent := {}

/-- A benign sound-effect row that passes all gates. -/
def demoRow : Row := { filename := "chime.wav", duration := some 1 }

/-! ## Claim C4: the safety gate is absolute -/

/-- C4: for every catalog, intent, and limit, every record returned by
`suggest()` stems from a catalog entry whose concatenated
filename/title/tags/category contains no denylisted substring
(gun, gunshot, weapon, horror, scream, blood, violence); an entry with a
denylisted hit is never selected, regardless of its scores or the intent. -/
theorem C4_deny_never_returned {rows : List Row} {caps : Caps} {intent : Intent}
    {limit : ℕ} {rec : SuggestionRecord} (h : rec ∈ suggest rows caps intent limit) :
    ∃ r ∈ rows, denyHit r = false ∧ rec = shape r := by
  obtain ⟨r, hr, rfl⟩ := List.mem_map.mp h
  obtain ⟨hrows, hkeep⟩ := mem_suggestRows hr
  exact ⟨r, hrows, (prefilterKeep_split hkeep).1, rfl⟩

theorem C4_witness :
    shape demoRow ∈ suggest [demoRow] capsNone intent0 1 ∧
      ∃ r ∈ [demoRow], denyHit r = false ∧ shape demoRow = shape r := by
  refine ⟨?_, ?_⟩
  · with_unfolding_all decide
  · exact @C4_deny_never_returned [demoRow] capsNone intent0 1 (shape demoRow)
      (by with_unfolding_all decide)

/-! ## Claim C5: duration bounds of returned records -/

/-- C5: every record returned by `suggest()` with type `music` has duration
in [8, 90] and every record with type `sfx` has duration in [0.2, 10]; in
particular a record with duration ≤ 0 (unparsable durations are read as 0)
never appears, through backfill included. -/
theorem C5_duration_bounds {rows : List Row} {caps : Caps} {intent : Intent}
    {limit : ℕ} {rec : SuggestionRecord} (h : rec ∈ suggest rows caps intent limit) :
    (rec.type = "music" → 8 ≤ rec.duration ∧ rec.duration ≤ 90) ∧
      (rec.type = "sfx" → 1/5 ≤ rec.duration ∧ rec.duration ≤ 10) ∧ 0 < rec.duration := by
  obtain ⟨r, hr, rfl⟩ := List.mem_map.mp h
  obtain ⟨_, hkeep⟩ := mem_suggestRows hr
  have hgate := (prefilterKeep_split hkeep).2
  unfold durationGate at hgate
  have ed : (shape r).duration = durOf r := rfl
  rw [ed]
  by_cases hs : isSong r = true
  · rw [if_pos hs] at hgate
    have hd := of_decide_eq_true hgate
    refine ⟨fun _ => hd, fun habs => ?_, by linarith [hd.1]⟩
    rw [shape] at habs
    simp only [hs, if_true] at habs
    exact absurd habs (by decide)
  · rw [if_neg hs] at hgate
    have hd := of_decide_eq_true hgate
    have h02 : (0 : ℚ) < 1/5 := by norm_num
    refine ⟨fun habs => ?_, fun _ => hd, by linarith [hd.1]⟩
    rw [shape] at habs
    simp only [hs, if_false] at habs
    exact absurd habs (by decide)

theorem C5_witness :
    shape demoRow ∈ suggest [demoRow] capsNone intent0 1 ∧
      ((shape demoRow).type = "sfx" →
        1/5 ≤ (shape demoRow).duration ∧ (shape demoRow).duration ≤ 10) := by
  refine ⟨?_, ?_⟩
  · with_unfolding_all decide
  · exact (@C5_duration_bounds [demoRow] capsNone intent0 1 (shape demoRow)
      (by with_unfolding_all decide)).2.1

/-! ## Claim C6: the result length never exceeds the limit -/

/-- C6: for every non-empty catalog, every intent, and every limit,
`suggest(intent, limit)` returns at most `limit` records. -/
theorem C6_limit_bound (rows : List Row) (caps : Caps) (intent : Intent) (limit : ℕ)
    (_hne : rows ≠ []) : (suggest rows caps intent limit).length ≤ limit := by
  simp only [suggest, suggestRows, selectRows, List.length_map]
  exact List.length_take_le _ _

theorem C6_witness :
    ([demoRow] : List Row) ≠ [] ∧ (suggest [demoRow] capsNone intent0 1).length ≤ 1 :=
  ⟨by simp, C6_limit_bound [demoRow] capsNone intent0 1 (by simp)⟩

/-! ## Claim C7: determinism of `suggest` -/

/-- C7: with an unchanged catalog and unchanged environment capabilities
(embedding backend and sidecar, abstracted by `Caps`), identical intent and
limit yield identical ordered output.  In the embedding `suggest` is a pure
function of exactly these inputs (the source's `time.time()` and logging do
not feed into the returned value), so the claim is congruence in them. -/
theorem C7_determinism (rows₁ rows₂ : List Row) (caps₁ caps₂ : Caps) (intent : Intent)
    (limit : ℕ) (hrows : rows₁ = rows₂) (hcaps : caps₁ = caps₂) :
    suggest rows₁ caps₁ intent limit = suggest rows₂ caps₂ intent limit := by
  rw [hrows, hcaps]

theorem C7_witness :
    suggest [demoRow] capsNone intent0 5 = suggest [demoRow] capsNone intent0 5 :=
  C7_determinism [demoRow] [demoRow] capsNone capsNone intent0 5 rfl rfl

/-! ## Claim C1: sorting behaviour of the reranker -/

theorem filter_orderedInsert_score (q : ℚ) (a : ℚ × Row) :
    ∀ l : List (ℚ × Row),
      (l.orderedInsert descLE a).filter (fun x => decide (x.1 = q)) =
        if a.1 = q then a :: l.filter (fun x => decide (x.1 = q))
        else l.filter (fun x => decide (x.1 = q))
  | [] => by
    by_cases h : a.1 = q <;> simp [List.orderedInsert, List.filter, h]
  | b :: t => by
    rw [List.orderedInsert]
    by_cases hr : descLE a b
    · rw [if_pos hr]
      by_cases h : a.1 = q <;> simp [List.filter_cons, h]
    · rw [if_neg hr]
      have hr' : ¬ (b.1 ≤ a.1) := hr
      have hab : a.1 < b.1 := lt_of_not_le hr'
      rw [List.filter_cons, List.filter_cons]
      have ih := filter_orderedInsert_score q a t
      by_cases h : a.1 = q
      · have hbq : ¬ (b.1 = q) := by
          intro hb
          rw [h, hb] at hab
          exact lt_irrefl q hab
        simp [h, hbq, ih]
      · simp [h, ih]

theorem filter_insertionSort_score (q : ℚ) :
    ∀ l : List (ℚ × Row),
      (l.insertionSort descLE).filter (fun x => decide (x.1 = q)) =
        l.filter (fun x => decide (x.1 = q))
  | [] => rfl
  | a :: t => by
    rw [List.insertionSort, filter_orderedInsert_score, List.filter_cons]
    by_cases h : a.1 = q <;> simp [h, filter_insertionSort_score q t]

/-- C1 (amended): when an embedding capability is available, `_rerank`
returns the enriched candidates sorted descending by `finalScore = 0.5·sim
+ baseScore`, and candidates with equal finalScore keep their prior
relative order (the filter at each score value is unchanged); when no
embedding capability is available, `_rerank` returns the base-scored list
in prefilter candidate order without re-sorting it (the source sorts only
the enriched path), so the output need not be sorted by baseScore. -/
theorem C1_rerank_sorting :
    (∀ (fz : Option (List String → Finset String → ℕ)) (cands : List Row)
      (qtext : String) (terms : List String),
      rerank ⟨fz, none⟩ cands qtext terms = baseList terms cands) ∧
    (∀ (fz : Option (List String → Finset String → ℕ)) (f : String → Row → ℚ)
      (cands : List Row) (qtext : String) (terms : List String),
      List.Sorted (fun a b : ℚ => b ≤ a)
        ((rerank ⟨fz, some f⟩ cands qtext terms).map Prod.fst) ∧
      ∀ q : ℚ, (rerank ⟨fz, some f⟩ cands qtext terms).filter (fun x => decide (x.1 = q)) =
        (enrichedList f qtext terms cands).filter (fun x => decide (x.1 = q))) := by
  refine ⟨fun fz cands qtext terms => rfl, fun fz f cands qtext terms => ⟨?_, ?_⟩⟩
  · have he : rerank ⟨fz, some f⟩ cands qtext terms =
        (enrichedList f qtext terms cands).insertionSort descLE := rfl
    rw [he]
    have hs := List.sorted_insertionSort descLE (enrichedList f qtext terms cands)
    exact hs.map Prod.fst (fun a b h => h)
  · exact fun q => filter_insertionSort_score q (enrichedList f qtext terms cands)

/-- A sound-effect row whose duration (5s) is outside the ideal window, so
its duration-fit score is 0. -/
def cexSlow : Row := { filename := "a.wav", duration := some 5 }

/-- A sound-effect row at the ideal 1.5s duration (fit score 1). -/
def cexFit : Row := { filename := "b.wav", duration := some (3/2) }

/-- C1 counterexample: on a prefilter-produced candidate list (empty intent,
so both rows tie at lexical score 0 and keep catalog order) the reranker's
output without an embedding capability is the base-scored list
`[0, 3/20]`, which is not sorted in descending order of finalScore. -/
theorem C1_counterexample :
    (rerank capsNone (prefilter capsNone [cexSlow, cexFit] (buildQuery intent0).1)
        (buildQuery intent0).2.1 (buildQuery intent0).1).map Prod.fst = [0, 3/20] ∧
    ¬ List.Sorted (fun a b : ℚ => b ≤ a)
      ((rerank capsNone (prefilter capsNone [cexSlow, cexFit] (buildQuery intent0).1)
        (buildQuery intent0).2.1 (buildQuery intent0).1).map Prod.fst) := by
  with_unfolding_all decide

/-! ## Claim C2: URL shaping of `suggest` output -/

/-- Modelled from the spec: the URL-shaping rule as §4.5 words it — when
`canonicalUrl` is absent, derive the relative path after the literal anchor
`"/public/sounds/"` in `sourceFilePath` (URL-encoded) under the fixed
bucket prefix, and only when no anchor is found fall back to the
folder-guess URL.  Used only to compare the spec's wording against the
code's actual output shaping (`urlOfRow`). -/
def specUrl (r : Row) : String :=
  if r.google_cloud_url ≠ "" then r.google_cloud_url
  else
    let p := r.file_path.toList.map fun c => if c == '\\' then '/' else c
    match findSubAux "/public/sounds/".toList (p.map lowCh) 0 with
    | some i =>
      "https://storage.googleapis.com/cwsounds/" ++ pyQuote (String.mk (p.drop (i + 15)))
    | none => guessUrl r.filename

/-- A row with no canonical URL whose `file_path` carries the
`"/public/sounds/"` anchor. -/
def anchorRow : Row :=
  { filename := "hello.wav", duration := some 1,
    file_path := "/app/public/sounds/sub/hello.wav" }

/-- C2 (amended): for every record selected by `suggest()`, the output
`url` is the row's `google_cloud_url` when non-empty and otherwise always
the folder-guess fallback `https://<bucket>/{mixkit|filmcow|google}/{filename}`;
the `"/public/sounds/"` anchor derivation from `file_path` is never used in
`suggest()` output shaping (it exists only in the resolver's index build). -/
theorem C2_url_shaping {rows : List Row} {caps : Caps} {intent : Intent} {limit : ℕ}
    {rec : SuggestionRecord} (h : rec ∈ suggest rows caps intent limit) :
    ∃ r ∈ rows, rec = shape r ∧
      rec.url = (if r.google_cloud_url ≠ "" then r.google_cloud_url
        else guessUrl r.filename) := by
  obtain ⟨r, hr, rfl⟩ := List.mem_map.mp h
  exact ⟨r, (mem_suggestRows hr).1, rfl, rfl⟩

theorem C2_witness :
    shape anchorRow ∈ suggest [anchorRow] capsNone intent0 1 ∧
      ∃ r ∈ [anchorRow], shape anchorRow = shape r ∧
        (shape anchorRow).url = (if r.google_cloud_url ≠ "" then r.google_cloud_url
          else guessUrl r.filename) := by
  refine ⟨?_, ?_⟩
  · with_unfolding_all decide
  · exact @C2_url_shaping [anchorRow] capsNone intent0 1 (shape anchorRow)
      (by with_unfolding_all decide)

/-- C2 counterexample: a row with no `google_cloud_url` whose `file_path`
contains the `"/public/sounds/"` anchor.  The claim predicts the
anchor-derived URL `…/cwsounds/sub/hello.wav`; `suggest()` actually emits
the folder-guess URL `…/cwsounds/google/hello.wav`. -/
theorem C2_counterexample :
    (suggest [anchorRow] capsNone intent0 1).map SuggestionRecord.url =
        ["https://storage.googleapis.com/cwsounds/google/hello.wav"] ∧
      specUrl anchorRow = "https://storage.googleapis.com/cwsounds/sub/hello.wav" ∧
      ¬ (suggest [anchorRow] capsNone intent0 1).map SuggestionRecord.url =
        [specUrl anchorRow] := by
  with_unfolding_all decide

/-! ## Claim C3: duplicates in one `suggest` result -/

theorem selectRows_nodup {ranked : List (ℚ × Row)} {tm ts limit : ℕ}
    (h : (ranked.map Prod.snd).Nodup) : (selectRows ranked tm ts limit).Nodup := by
  have hsubM : ((ranked.filter fun t => isSong t.2).map Prod.snd).Sublist
      (ranked.map Prod.snd) := (List.filter_sublist _).map Prod.snd
  have hsubS : ((ranked.filter fun t => !(isSong t.2)).map Prod.snd).Sublist
      (ranked.map Prod.snd) := (List.filter_sublist _).map Prod.snd
  have hM := @mmrPick_nodup _ tm (hsubM.nodup h)
  have hS := @mmrPick_nodup _ ts (hsubS.nodup h)
  have hMs : ∀ r ∈ mmrPick (ranked.filter fun t => isSong t.2) tm, isSong r = true := by
    intro r hr
    obtain ⟨t, ht, rfl⟩ := List.mem_map.mp (mem_mmrPick hr)
    exact (List.mem_filter.mp ht).2
  have hSs : ∀ r ∈ mmrPick (ranked.filter fun t => !(isSong t.2)) ts,
      isSong r = false := by
    intro r hr
    obtain ⟨t, ht, rfl⟩ := List.mem_map.mp (mem_mmrPick hr)
    have hc := (List.mem_filter.mp ht).2
    simpa using hc
  have hp0 : (mmrPick (ranked.filter fun t => isSong t.2) tm ++
      mmrPick (ranked.filter fun t => !(isSong t.2)) ts).Nodup := by
    rw [List.nodup_append]
    refine ⟨hM, hS, fun r hr1 hr2 => ?_⟩
    have hfalse := hSs r hr2
    rw [hMs r hr1] at hfalse
    exact Bool.noConfusion hfalse
  simp only [selectRows]
  split
  · refine List.Nodup.sublist (List.take_sublist _ _) ?_
    rw [List.nodup_append]
    refine ⟨hp0, ?_, ?_⟩
    · exact (((List.take_sublist _ _).trans (List.filter_sublist _)).map Prod.snd).nodup h
    · intro r hr1 hr2
      obtain ⟨t, ht, rfl⟩ := List.mem_map.mp hr2
      have hcond := (List.mem_filter.mp (List.take_subset _ _ ht)).2
      simp only [Bool.not_eq_true', decide_eq_false_iff_not] at hcond
      exact hcond hr1
  · exact (List.take_sublist _ _).nodup hp0

/-- C3 (amended): `suggest()` never selects the same catalog row twice —
for a catalog whose rows are pairwise-distinct records, the selected row
list underlying one result (whose shaping is the result) has no duplicate
row; however two distinct rows sharing the same `filename` can both be
selected (the source deduplicates by object identity and row equality,
never by filename), so a filename value may appear twice in one result. -/
theorem C3_no_duplicate_rows {rows : List Row} {caps : Caps} {intent : Intent}
    {limit : ℕ} (h : rows.Nodup) : (suggestRows rows caps intent limit).Nodup := by
  simp only [suggestRows]
  exact selectRows_nodup ((rerank_rows_perm _ _ _ _).nodup_iff.mpr (prefilter_rows_nodup h))

/-- Two distinct catalog rows sharing the filename `a.wav`. -/
def dupRowA : Row := { filename := "a.wav", duration := some 1, kit_category := "x" }

def dupRowB : Row := { filename := "a.wav", duration := some 1, kit_category := "y" }

theorem C3_witness :
    ([dupRowA, dupRowB] : List Row).Nodup ∧
      (suggestRows [dupRowA, dupRowB] capsNone intent0 2).Nodup := by
  refine ⟨?_, C3_no_duplicate_rows ?_⟩ <;> with_unfolding_all decide

/-- C3 counterexample: with two distinct rows sharing `filename = "a.wav"`
(both passing every gate), `suggest()` returns both, so the filename value
appears twice in one result. -/
theorem C3_counterexample :
    (suggest [dupRowA, dupRowB] capsNone intent0 2).map SuggestionRecord.filename =
        ["a.wav", "a.wav"] ∧
      ¬ ((suggest [dupRowA, dupRowB] capsNone intent0 2).map
        SuggestionRecord.filename).Nodup := by
  with_unfolding_all decide

/-! ## Claim C8: behaviour with a missing catalog file -/

theorem mmrLoop_nil (sel : List (ℚ × Row)) : ∀ fuel, mmrLoop fuel sel [] = sel
  | 0 => rfl
  | fuel + 1 => by rw [mmrLoop]; simp

theorem suggest_nil (caps : Caps) (intent : Intent) (limit : ℕ) :
    suggest [] caps intent limit = [] := by
  have hpre : prefilter caps [] (buildQuery intent).1 = [] := by
    simp [prefilter]
  have hrer : rerank caps [] (buildQuery intent).2.1 (buildQuery intent).1 = [] := by
    unfold rerank
    cases caps.emb <;> simp [baseList, enrichedList]
  simp [suggest, suggestRows, hpre, hrer, selectRows, mmrPick, mmrLoop_nil]

theorem resolveTok_missing_not_http {token : String}
    (h : isHttpTok (preprocessTok token) = false) : resolveTok none token = none := by
  unfold resolveTok
  rw [if_neg (fun hc => by rw [h] at hc; exact Bool.noConfusion hc)]
  by_cases hkey : normKey (preprocessTok token) ≠ ""
  · simp only [if_pos hkey]
    rfl
  · simp only [if_neg hkey]
    rfl

theorem resolveTok_missing_http {token : String}
    (h : isHttpTok (preprocessTok token) = true) :
    resolveTok none token = some (preprocessTok token) := by
  unfold resolveTok
  rw [if_pos h]

/-- C8 (amended): a missing catalog file at construction is modelled by an
empty catalog / absent CSV: `suggest()` then returns the empty list, and
`resolve()` returns `None` for every token that (after trimming and `@`
stripping) does not start with `http://`/`https://`; a token that does is
returned unchanged (the URL pass-through precedes every catalog lookup).
Construction itself is total (the loader returns an empty row list). -/
theorem C8_empty_catalog :
    (∀ (caps : Caps) (intent : Intent) (limit : ℕ), suggest [] caps intent limit = []) ∧
    (∀ token : String, isHttpTok (preprocessTok token) = false →
      resolveTok none token = none) ∧
    (∀ token : String, isHttpTok (preprocessTok token) = true →
      resolveTok none token = some (preprocessTok token)) :=
  ⟨suggest_nil, fun _ h => resolveTok_missing_not_http h,
    fun _ h => resolveTok_missing_http h⟩

theorem C8_witness :
    suggest [] capsNone intent0 3 = [] ∧
      isHttpTok (preprocessTok "chime") = false ∧ resolveTok none "chime" = none :=
  ⟨C8_empty_catalog.1 capsNone intent0 3, by decide, C8_empty_catalog.2.1 "chime" (by decide)⟩

/-- C8 counterexample: with a missing catalog, `resolve()` applied to a
token that is already an URL returns the token itself, not `None` — so
"every call to resolve() returns None" fails as stated. -/
theorem C8_counterexample :
    resolveTok none "https://example.com/a.mp3" = some "https://example.com/a.mp3" ∧
      resolveTok none "https://example.com/a.mp3" ≠ none := by
  refine ⟨by decide, ?_⟩
  intro habs
  rw [(by decide : resolveTok none "https://example.com/a.mp3" =
    some "https://example.com/a.mp3")] at habs
  exact Option.noConfusion habs

/-! ## Claim C9: first writer wins in the resolver index -/

theorem lookupIdx_append (idx₁ idx₂ : List (String × IdxEntry)) (k : String) :
    lookupIdx (idx₁ ++ idx₂) k = (lookupIdx idx₁ k).or (lookupIdx idx₂ k) := by
  unfold lookupIdx
  rw [List.find?_append]
  cases List.find? (fun p => p.1 == k) idx₁ <;> simp

theorem lookupIdx_idxInsert (idx : List (String × IdxEntry)) (kk k : String) (e : IdxEntry)
    (hk : k ≠ "") :
    lookupIdx (idxInsert idx kk e) k =
      if k = kk then (lookupIdx idx k).or (some e) else lookupIdx idx k := by
  unfold idxInsert
  split
  · rename_i hcond
    rw [lookupIdx_append]
    by_cases hkk : k = kk
    · rw [if_pos hkk]
      have : lookupIdx [(kk, e)] k = some e := by
        subst hkk
        simp [lookupIdx]
      rw [this]
    · rw [if_neg hkk]
      have hbeq : (kk == k) = false := by
        rw [beq_eq_false_iff_ne]
        exact fun hc => hkk hc.symm
      have : lookupIdx [(kk, e)] k = none := by
        simp [lookupIdx, List.find?, hbeq]
      rw [this]
      cases lookupIdx idx k <;> rfl
  · rename_i hcond
    by_cases hkk : k = kk
    · rw [if_pos hkk]
      subst hkk
      rcases not_and_or.mp hcond with hkempty | hfound
      · exact absurd hk (by simpa using hkempty)
      · have : ∃ p, List.find? (fun p => p.1 == k) idx = some p := by
          rcases Option.eq_none_or_eq_some (List.find? (fun p => p.1 == k) idx) with hnone | hsome
          · exact absurd hnone (by simpa using hfound)
          · exact hsome
        obtain ⟨p, hp⟩ := this
        unfold lookupIdx
        rw [hp]
        rfl
    · rw [if_neg hkk]

/-- Lookup after inserting all keys of one row. -/
theorem lookupIdx_rowFold (e : IdxEntry) (k : String) (hk : k ≠ "") :
    ∀ (ks : List String) (idx : List (String × IdxEntry)),
      lookupIdx (ks.foldl (fun idx kk => idxInsert idx kk e) idx) k =
        (lookupIdx idx k).or (if k ∈ ks then some e else none)
  | [], idx => by simp
  | kk :: ks, idx => by
    rw [List.foldl_cons, lookupIdx_rowFold e k hk ks (idxInsert idx kk e),
      lookupIdx_idxInsert idx kk k e hk]
    by_cases hkk : k = kk
    · rw [if_pos hkk]
      have hm : k ∈ kk :: ks := by simp [hkk]
      rw [if_pos hm, Option.or_assoc]
      rfl
    · rw [if_neg hkk]
      have hmem : k ∈ kk :: ks ↔ k ∈ ks := by
        simp [List.mem_cons, hkk]
      by_cases hks : k ∈ ks
      · rw [if_pos hks, if_pos (hmem.mpr hks)]
      · rw [if_neg hks, if_neg (fun hc => hks (hmem.mp hc))]

theorem lookupIdx_buildIndex_aux (k : String) (hk : k ≠ "") :
    ∀ (rows : List Row) (idx : List (String × IdxEntry)),
      lookupIdx (rows.foldl
          (fun idx r => (rowKeyList r).foldl (fun idx kk => idxInsert idx kk (entryFor r)) idx)
          idx) k =
        (lookupIdx idx k).or
          ((rows.find? fun r => decide (k ∈ rowKeyList r)).map entryFor)
  | [], idx => by simp
  | r :: rows, idx => by
    rw [List.foldl_cons,
      lookupIdx_buildIndex_aux k hk rows
        ((rowKeyList r).foldl (fun idx kk => idxInsert idx kk (entryFor r)) idx),
      lookupIdx_rowFold (entryFor r) k hk]
    by_cases hmem : k ∈ rowKeyList r
    · rw [if_pos hmem, List.find?_cons_of_pos _ (by simpa using hmem), Option.or_assoc]
      rfl
    · rw [if_neg hmem, List.find?_cons_of_neg _ (by simpa using hmem), Option.or_none]

/-- C9: in the resolver index, for every pair of catalog entries producing
the same normalized key, the index maps that key to the entry (hence URL)
of the row occurring first in catalog order — a later row never overwrites
an earlier mapping: lookup equals the entry of the first row whose key set
contains the key. -/
theorem C9_first_writer_wins (rows : List Row) (k : String) (hk : k ≠ "") :
    lookupIdx (buildIndex rows) k =
      (rows.find? fun r => decide (k ∈ rowKeyList r)).map entryFor := by
  have h := lookupIdx_buildIndex_aux k hk rows []
  unfold buildIndex
  rw [h]
  rfl

/-- Two rows colliding on the key `a` (same filename), with different URLs. -/
def collideA : Row := { filename := "a.wav", google_cloud_url := "https://x.org/u1" }

def collideB : Row := { filename := "a.wav", google_cloud_url := "https://x.org/u2" }

theorem C9_witness :
    ("a" : String) ≠ "" ∧
      lookupIdx (buildIndex [collideA, collideB]) "a" =
        (([collideA, collideB].find? fun r => decide ("a" ∈ rowKeyList r)).map entryFor) ∧
      lookupIdx (buildIndex [collideA, collideB]) "a" = some (entryFor collideA) ∧
      (entryFor collideA).url = "https://x.org/u1" := by
  refine ⟨by decide, C9_first_writer_wins [collideA, collideB] "a" (by decide), ?_, by decide⟩
  decide

/-! ## Claim C10: resolving a token with an empty normalized key

The chain of lemmas below establishes that when `_norm(tok)` is empty the
stem `_norm(strip_ext(tok))` is empty as well, that such a token cannot be
an `http(s)://` URL, that the built index holds no empty key, and that the
direct fallback scan with an empty stem matches the first row with a
non-empty filename. -/

theorem ws_false_of_lowDigit {c : Char} (h : isLowDigit c = true) : isWsChar c = false := by
  unfold isLowDigit at h
  simp only [Bool.or_eq_true, Bool.and_eq_true, decide_eq_true_eq] at h
  unfold isWsChar
  simp only [Bool.or_eq_false_iff, beq_eq_false_iff_ne]
  refine ⟨⟨⟨⟨⟨?_, ?_⟩, ?_⟩, ?_⟩, ?_⟩, ?_⟩ <;>
    · intro hc
      subst hc
      revert h
      decide

theorem und_false_of_lowDigit {c : Char} (h : isLowDigit c = true) : c ≠ '_' := by
  intro hc
  subst hc
  revert h
  decide

theorem isLowDigit_replDashChar (c : Char) :
    isLowDigit (if c == '-' || c == ' ' then '_' else c) = isLowDigit c := by
  by_cases h1 : c = '-'
  · subst h1
    decide
  · by_cases h2 : c = ' '
    · subst h2
      decide
    · rw [if_neg (by simp [h1, h2])]

theorem replDashChar_of_lowDigit {c : Char} (h : isLowDigit c = true) :
    (if c == '-' || c == ' ' then '_' else c) = c := by
  rw [if_neg]
  simp only [Bool.or_eq_true, beq_iff_eq, not_or]
  constructor <;>
    · intro hc
      subst hc
      revert h
      decide

theorem lowCh_of_lowDigit {c : Char} (h : isLowDigit c = true) : lowCh c = c := by
  unfold isLowDigit at h
  simp only [Bool.or_eq_true, Bool.and_eq_true, decide_eq_true_eq] at h
  unfold lowCh
  rw [if_neg]
  simp only [Bool.and_eq_true, decide_eq_true_eq, not_and]
  intro h1 h2
  omega

/-- Mapping is the identity when `f` fixes every member. -/
theorem map_eq_self_of_fix {α : Type} {f : α → α} :
    ∀ {l : List α}, (∀ c ∈ l, f c = c) → l.map f = l
  | [], _ => rfl
  | a :: t, h => by
    rw [List.map_cons, h a (List.mem_cons_self a t),
      map_eq_self_of_fix fun c hc => h c (List.mem_cons_of_mem a hc)]

theorem takeWhile_append_all {p : Char → Bool} :
    ∀ {l₁ : List Char} (l₂ : List Char), (∀ c ∈ l₁, p c = true) →
      List.takeWhile p (l₁ ++ l₂) = l₁ ++ List.takeWhile p l₂
  | [], l₂, _ => rfl
  | a :: t, l₂, h => by
    rw [List.cons_append, List.takeWhile_cons, h a (List.mem_cons_self a t)]
    rw [takeWhile_append_all l₂ fun c hc => h c (List.mem_cons_of_mem a hc)]
    rfl

theorem dropWhile_append_all {p : Char → Bool} :
    ∀ {l₁ : List Char} (l₂ : List Char), (∀ c ∈ l₁, p c = true) →
      List.dropWhile p (l₁ ++ l₂) = List.dropWhile p l₂
  | [], l₂, _ => rfl
  | a :: t, l₂, h => by
    rw [List.cons_append, List.dropWhile_cons, h a (List.mem_cons_self a t)]
    exact dropWhile_append_all l₂ fun c hc => h c (List.mem_cons_of_mem a hc)

/-- The function `dropWhile` distributes over an append whose right part starts with a
failing character. -/
theorem dropWhile_append_head_false {p : Char → Bool} {a : Char} {e : List Char}
    (ha : p a = false) :
    ∀ t : List Char, List.dropWhile p (t ++ a :: e) = List.dropWhile p t ++ a :: e
  | [] => by simp [List.dropWhile_cons, ha]
  | c :: t => by
    rw [List.cons_append, List.dropWhile_cons, List.dropWhile_cons]
    by_cases hc : p c = true
    · rw [hc]
      simp only [if_true]
      exact dropWhile_append_head_false ha t
    · rw [Bool.not_eq_true] at hc
      rw [hc]
      simp

theorem mem_dropWhile_of_false {p : Char → Bool} {c : Char} (hc : p c = false) :
    ∀ {l : List Char}, c ∈ l → c ∈ l.dropWhile p
  | [], h => absurd h (List.not_mem_nil c)
  | a :: t, h => by
    rw [List.dropWhile_cons]
    by_cases hpa : p a = true
    · rw [hpa]
      simp only [if_true]
      rcases List.mem_cons.mp h with h1 | h1
      · subst h1
        rw [hpa] at hc
        exact Bool.noConfusion hc
      · exact mem_dropWhile_of_false hc h1
    · rw [Bool.not_eq_true] at hpa
      rw [hpa]
      simpa using h

theorem mem_stripUnd_of_ne {c : Char} (hc : c ≠ '_') {l : List Char} (h : c ∈ l) :
    c ∈ stripUnd l := by
  unfold stripUnd
  have hb : (c == '_') = false := by simpa using hc
  rw [List.mem_reverse]
  exact @mem_dropWhile_of_false (fun x => x == '_') c hb _
    (List.mem_reverse.mpr (@mem_dropWhile_of_false (fun x => x == '_') c hb _ h))

theorem mem_subNonAlnumAux_of_lowDigit {c : Char} (hc : isLowDigit c = true) :
    ∀ (b : Bool) {l : List Char}, c ∈ l → c ∈ subNonAlnumAux b l
  | b, [], h => absurd h (List.not_mem_nil c)
  | b, a :: t, h => by
    rw [subNonAlnumAux]
    rcases List.mem_cons.mp h with h1 | h1
    · subst h1
      rw [if_pos (by simp [hc])]
      exact List.mem_cons_self c _
    · by_cases ha : (isLowDigit a || a == '_') = true
      · rw [if_pos ha]
        exact List.mem_cons_of_mem a (mem_subNonAlnumAux_of_lowDigit hc false h1)
      · rw [if_neg ha]
        cases b
        · simp only [Bool.false_eq_true, if_false]
          exact List.mem_cons_of_mem '_' (mem_subNonAlnumAux_of_lowDigit hc true h1)
        · simp only [if_true]
          exact mem_subNonAlnumAux_of_lowDigit hc true h1

theorem mem_collapseUndAux_of_ne {c : Char} (hc : c ≠ '_') :
    ∀ (b : Bool) {l : List Char}, c ∈ l → c ∈ collapseUndAux b l
  | b, [], h => absurd h (List.not_mem_nil c)
  | b, a :: t, h => by
    rw [collapseUndAux]
    rcases List.mem_cons.mp h with h1 | h1
    · subst h1
      rw [if_neg (by simpa using hc)]
      exact List.mem_cons_self c _
    · by_cases ha : (a == '_') = true
      · rw [if_pos ha]
        cases b
        · simp only [Bool.false_eq_true, if_false]
          exact List.mem_cons_of_mem '_' (mem_collapseUndAux_of_ne hc true h1)
        · simp only [if_true]
          exact mem_collapseUndAux_of_ne hc true h1
      · rw [if_neg ha]
        exact List.mem_cons_of_mem a (mem_collapseUndAux_of_ne hc false h1)

theorem subNonAlnumAux_all_und :
    ∀ {l : List Char}, (∀ c ∈ l, isLowDigit c = false) →
      ∀ (b : Bool), ∀ c ∈ subNonAlnumAux b l, c = '_'
  | [], _, b, c, hc => absurd hc (by rw [subNonAlnumAux]; exact List.not_mem_nil c)
  | a :: t, h, b, c, hc => by
    rw [subNonAlnumAux] at hc
    have ha := h a (List.mem_cons_self a t)
    have ht : ∀ c ∈ t, isLowDigit c = false := fun c hc => h c (List.mem_cons_of_mem a hc)
    by_cases hu : a = '_'
    · rw [if_pos (by simp [hu])] at hc
      rcases List.mem_cons.mp hc with h1 | h1
      · rw [h1, hu]
      · exact subNonAlnumAux_all_und ht false c h1
    · rw [if_neg (by simp [ha, hu])] at hc
      cases b
      · simp only [Bool.false_eq_true, if_false] at hc
        rcases List.mem_cons.mp hc with h1 | h1
        · exact h1
        · exact subNonAlnumAux_all_und ht true c h1
      · simp only [if_true] at hc
        exact subNonAlnumAux_all_und ht true c hc

theorem mem_collapseUndAux_subset {c : Char} :
    ∀ (b : Bool) {l : List Char}, c ∈ collapseUndAux b l → c ∈ l ∨ c = '_'
  | b, [], hc => absurd hc (by rw [collapseUndAux]; exact List.not_mem_nil c)
  | b, a :: t, hc => by
    rw [collapseUndAux] at hc
    by_cases ha : (a == '_') = true
    · rw [if_pos ha] at hc
      cases b
      · simp only [Bool.false_eq_true, if_false] at hc
        rcases List.mem_cons.mp hc with h1 | h1
        · exact Or.inr h1
        · rcases mem_collapseUndAux_subset true h1 with h2 | h2
          · exact Or.inl (List.mem_cons_of_mem a h2)
          · exact Or.inr h2
      · simp only [if_true] at hc
        rcases mem_collapseUndAux_subset true hc with h2 | h2
        · exact Or.inl (List.mem_cons_of_mem a h2)
        · exact Or.inr h2
    · rw [if_neg ha] at hc
      rcases List.mem_cons.mp hc with h1 | h1
      · exact Or.inl (h1 ▸ List.mem_cons_self a t)
      · rcases mem_collapseUndAux_subset false h1 with h2 | h2
        · exact Or.inl (List.mem_cons_of_mem a h2)
        · exact Or.inr h2

theorem stripUnd_all_und {l : List Char} (h : ∀ c ∈ l, c = '_') : stripUnd l = [] := by
  unfold stripUnd
  have h1 : List.dropWhile (fun c => c == '_') l = [] :=
    List.dropWhile_eq_nil_iff.mpr fun c hc => by simp [h c hc]
  rw [h1]
  rfl

/-- The underscore pipeline after the extension drop: empty output iff no
`[a-z0-9]` character is present. -/
theorem normAux_nil_iff {X : List Char} :
    stripUnd (collapseUnd (subNonAlnum (replDash X))) = [] ↔
      ∀ c ∈ X, isLowDigit c = false := by
  constructor
  · intro h c hcX
    by_contra hcon
    have hlc : isLowDigit c = true := by
      cases hval : isLowDigit c
      · exact absurd hval hcon
      · rfl
    have hnu : c ≠ '_' := und_false_of_lowDigit hlc
    have h1 : c ∈ replDash X := by
      unfold replDash
      have hmm := List.mem_map_of_mem (fun c => if c == '-' || c == ' ' then '_' else c) hcX
      simp only [replDashChar_of_lowDigit hlc] at hmm
      exact hmm
    have h2 : c ∈ subNonAlnum (replDash X) := mem_subNonAlnumAux_of_lowDigit hlc false h1
    have h3 : c ∈ collapseUnd (subNonAlnum (replDash X)) := mem_collapseUndAux_of_ne hnu false h2
    have h4 := mem_stripUnd_of_ne hnu h3
    rw [h] at h4
    exact List.not_mem_nil c h4
  · intro h
    have h1 : ∀ c ∈ replDash X, isLowDigit c = false := by
      intro c hc
      obtain ⟨a, ha, rfl⟩ := List.mem_map.mp hc
      rw [isLowDigit_replDashChar]
      exact h a ha
    have h2 : ∀ c ∈ subNonAlnum (replDash X), c = '_' := subNonAlnumAux_all_und h1 false
    have h3 : ∀ c ∈ collapseUnd (subNonAlnum (replDash X)), c = '_' := by
      intro c hc
      rcases mem_collapseUndAux_subset false hc with h4 | h4
      · exact h2 c h4
      · exact h4
    exact stripUnd_all_und h3

theorem normL_nil_iff {l : List Char} :
    normL l = [] ↔ ∀ c ∈ dropExtL ((stripL l).map lowCh), isLowDigit c = false :=
  normAux_nil_iff

theorem normKey_eq_empty_iff {s : String} : normKey s = "" ↔ normL s.toList = [] := by
  unfold normKey
  constructor
  · intro h
    exact congrArg String.data h
  · intro h
    rw [h]

/-- Whatever `dropExtL` returns is made of characters of its input. -/
theorem dropExtL_subset {c : Char} {l : List Char} (h : c ∈ dropExtL l) : c ∈ l := by
  unfold dropExtL at h
  split at h
  · rename_i tail hrun hdrop
    rw [List.mem_reverse] at h
    have h1 : c ∈ List.dropWhile isLowDigit l.reverse := by
      rw [hdrop]
      exact List.mem_cons_of_mem '.' h
    have h2 := (List.dropWhile_sublist isLowDigit (l := l.reverse)).subset h1
    rwa [List.mem_reverse] at h2
  · exact h

/-- Decomposition of `dropExtL`: either nothing is removed, or the list
ends in a dot followed by a non-empty `[a-z0-9]` run, which is removed. -/
theorem dropExtL_cases (l : List Char) :
    dropExtL l = l ∨ ∃ t e, l = t ++ '.' :: e ∧ e ≠ [] ∧
      (∀ c ∈ e, isLowDigit c = true) ∧ dropExtL l = t := by
  unfold dropExtL
  split
  · rename_i a as tail htake hdrop
    refine Or.inr ⟨tail.reverse, (a :: as).reverse, ?_, by simp, ?_, rfl⟩
    · have hsplit := List.takeWhile_append_dropWhile (p := isLowDigit) (l := l.reverse)
      rw [htake, hdrop] at hsplit
      have : l = ((a :: as) ++ '.' :: tail).reverse := by
        rw [hsplit, List.reverse_reverse]
      rw [this, List.reverse_append, List.reverse_cons, List.append_assoc]
      simp
    · intro c hc
      rw [List.mem_reverse] at hc
      have : c ∈ List.takeWhile isLowDigit l.reverse := htake ▸ hc
      exact List.mem_takeWhile_imp this
  · exact Or.inl rfl

/-- Removing an explicitly appended extension. -/
theorem dropExtL_append_ext {t e : List Char} (he : e ≠ [])
    (hall : ∀ c ∈ e, isLowDigit c = true) : dropExtL (t ++ '.' :: e) = t := by
  obtain ⟨a, as, ha⟩ := List.exists_cons_of_ne_nil (l := e.reverse) (by simpa using he)
  have hrevall : ∀ c ∈ e.reverse, isLowDigit c = true := fun c hc =>
    hall c (List.mem_reverse.mp hc)
  have hrev : (t ++ '.' :: e).reverse = e.reverse ++ '.' :: t.reverse := by
    simp [List.reverse_append]
  have htake : (t ++ '.' :: e).reverse.takeWhile isLowDigit = a :: as := by
    rw [hrev, takeWhile_append_all _ hrevall, List.takeWhile_cons]
    simp only [(by decide : isLowDigit '.' = false), Bool.false_eq_true, if_false,
      List.append_nil]
    exact ha
  have hdrop : (t ++ '.' :: e).reverse.dropWhile isLowDigit = '.' :: t.reverse := by
    rw [hrev, dropWhile_append_all _ hrevall, List.dropWhile_cons]
    simp [(by decide : isLowDigit '.' = false)]
  unfold dropExtL
  rw [htake, hdrop]
  simp

theorem dropWhile_eq_self_of_head {p : Char → Bool} {a : Char} {l : List Char}
    (h : p a = false) : List.dropWhile p (a :: l) = a :: l := by
  rw [List.dropWhile_cons, h]
  simp

/-- Python `str.strip()` of a list ending in a dot and a non-whitespace suffix
strips only on the left. -/
theorem stripL_append_ext {t e : List Char} (he : e ≠ [])
    (hnw : ∀ c ∈ e, isWsChar c = false) :
    stripL (t ++ '.' :: e) = List.dropWhile isWsChar t ++ '.' :: e := by
  unfold stripL
  have hdot : isWsChar '.' = false := by decide
  rw [dropWhile_append_head_false hdot t]
  obtain ⟨a, as, ha⟩ := List.exists_cons_of_ne_nil (l := e.reverse) (by simpa using he)
  have hanw : isWsChar a = false :=
    hnw a (List.mem_reverse.mp (ha ▸ List.mem_cons_self a as))
  have hshape : (List.dropWhile isWsChar t ++ '.' :: e).reverse =
      a :: (as ++ '.' :: (List.dropWhile isWsChar t).reverse) := by
    rw [List.reverse_append, List.reverse_cons, ha]
    simp
  have hdw : List.dropWhile isWsChar ((List.dropWhile isWsChar t ++ '.' :: e).reverse) =
      (List.dropWhile isWsChar t ++ '.' :: e).reverse := by
    rw [hshape, dropWhile_eq_self_of_head hanw]
  rw [hdw, List.reverse_reverse]

theorem stripL_cons_head {c : Char} (hc : isWsChar c = false) (t : List Char) :
    ∃ z, stripL (c :: t) = c :: z := by
  unfold stripL
  rw [dropWhile_eq_self_of_head hc]
  have h2 : List.dropWhile isWsChar (c :: t).reverse =
      List.dropWhile isWsChar t.reverse ++ [c] := by
    rw [List.reverse_cons]
    exact dropWhile_append_head_false hc t.reverse
  rw [h2]
  refine ⟨(List.dropWhile isWsChar t.reverse).reverse, ?_⟩
  simp

theorem isPrefixL_cons_ex {a : Char} {as l : List Char} (h : isPrefixL (a :: as) l = true) :
    ∃ bs, l = a :: bs := by
  cases l with
  | nil => exact Bool.noConfusion h
  | cons b bs =>
    rw [isPrefixL] at h
    have hab := (Bool.and_eq_true _ _).mp h
    have : a = b := beq_iff_eq.mp hab.1
    exact ⟨bs, by rw [this]⟩

/-- An `http(s)://` token never has an empty normalized key (its leading
`h` survives every normalization step). -/
theorem normKey_ne_empty_of_http {u : String} (h : isHttpTok u = true) : normKey u ≠ "" := by
  intro hk
  have hX := normL_nil_iff.mp (normKey_eq_empty_iff.mp hk)
  have hcons : ∃ rest, u.toList = 'h' :: rest := by
    unfold isHttpTok at h
    rcases Bool.or_eq_true_iff.mp h with h1 | h1
    · exact isPrefixL_cons_ex h1
    · exact isPrefixL_cons_ex h1
  obtain ⟨rest, hrest⟩ := hcons
  obtain ⟨z, hz⟩ := @stripL_cons_head 'h' (by decide) rest
  have hmap : (stripL u.toList).map lowCh = 'h' :: z.map lowCh := by
    rw [hrest, hz, List.map_cons, (by decide : lowCh 'h' = 'h')]
  have hmem : 'h' ∈ dropExtL ((stripL u.toList).map lowCh) := by
    rw [hmap]
    rcases dropExtL_cases ('h' :: z.map lowCh) with hcase | ⟨t, e, heq, hne, hall, hres⟩
    · rw [hcase]
      exact List.mem_cons_self _ _
    · cases t with
      | nil => simp at heq
      | cons b t2 =>
        rw [hres]
        rw [List.cons_append] at heq
        have hb : 'h' = b := (List.cons.injEq _ _ _ _).mp heq |>.1
        rw [← hb]
        exact List.mem_cons_self _ _
  have := hX 'h' hmem
  revert this
  decide

/-- If the normalized key of a token is empty, so is the normalized key of
the token with a trailing extension stripped (the stem used by the
resolver's second lookup and its fallback scan). -/
theorem normL_dropExtL_of_nil {l : List Char} (h : normL l = []) :
    normL (dropExtL l) = [] := by
  rcases dropExtL_cases l with hcase | ⟨t, e, heq, hne, hall, hres⟩
  · rwa [hcase]
  · rw [hres]
    have hX := normL_nil_iff.mp h
    have hnw : ∀ c ∈ e, isWsChar c = false := fun c hc => ws_false_of_lowDigit (hall c hc)
    have hstr : stripL l = List.dropWhile isWsChar t ++ '.' :: e := by
      rw [heq]
      exact stripL_append_ext hne hnw
    have hmape : e.map lowCh = e := map_eq_self_of_fix fun c hc => lowCh_of_lowDigit (hall c hc)
    have hmap : (stripL l).map lowCh =
        (List.dropWhile isWsChar t).map lowCh ++ '.' :: e := by
      rw [hstr, List.map_append, List.map_cons, (by decide : lowCh '.' = '.'), hmape]
    have hXeq : dropExtL ((stripL l).map lowCh) = (List.dropWhile isWsChar t).map lowCh := by
      rw [hmap]
      exact dropExtL_append_ext hne hall
    rw [hXeq] at hX
    rw [normL_nil_iff]
    intro c hc
    have hc1 : c ∈ (stripL t).map lowCh := dropExtL_subset hc
    obtain ⟨a, ha, rfl⟩ := List.mem_map.mp hc1
    have ha2 : a ∈ List.dropWhile isWsChar t := by
      unfold stripL at ha
      rw [List.mem_reverse] at ha
      have hsub := (List.dropWhile_sublist (p := isWsChar)
        (l := (List.dropWhile isWsChar t).reverse)).subset ha
      rwa [List.mem_reverse] at hsub
    exact hX (lowCh a) (List.mem_map_of_mem lowCh ha2)

/-! Key non-emptiness of the built index. -/

theorem idxInsert_keys {idx : List (String × IdxEntry)} {k : String} {e : IdxEntry}
    (h : ∀ p ∈ idx, p.1 ≠ "") : ∀ p ∈ idxInsert idx k e, p.1 ≠ "" := by
  unfold idxInsert
  split
  · rename_i hcond
    intro p hp
    rcases List.mem_append.mp hp with h1 | h1
    · exact h p h1
    · rw [List.mem_singleton] at h1
      rw [h1]
      exact hcond.1
  · exact h

theorem rowFold_keys (e : IdxEntry) :
    ∀ (ks : List String) (idx : List (String × IdxEntry)),
      (∀ p ∈ idx, p.1 ≠ "") →
      ∀ p ∈ ks.foldl (fun idx kk => idxInsert idx kk e) idx, p.1 ≠ ""
  | [], _, h => h
  | kk :: ks, idx, h => by
    rw [List.foldl_cons]
    exact rowFold_keys e ks _ (idxInsert_keys h)

theorem buildIndex_keys :
    ∀ (rows : List Row) (idx : List (String × IdxEntry)),
      (∀ p ∈ idx, p.1 ≠ "") →
      ∀ p ∈ rows.foldl
        (fun idx r => (rowKeyList r).foldl (fun idx kk => idxInsert idx kk (entryFor r)) idx)
        idx, p.1 ≠ ""
  | [], _, h => h
  | r :: rows, idx, h => by
    rw [List.foldl_cons]
    exact buildIndex_keys rows _ (rowFold_keys (entryFor r) (rowKeyList r) idx h)

theorem lookupIdx_buildIndex_empty (rows : List Row) :
    lookupIdx (buildIndex rows) "" = none := by
  have hfind : List.find? (fun p => p.1 == "") (buildIndex rows) = none := by
    refine List.find?_eq_none.mpr fun p hp => ?_
    have hp' : p ∈ rows.foldl
        (fun idx r => (rowKeyList r).foldl (fun idx kk => idxInsert idx kk (entryFor r)) idx)
        [] := hp
    have hne := buildIndex_keys rows [] (fun q hq => absurd hq (List.not_mem_nil q)) p hp'
    simpa using hne
  unfold lookupIdx
  rw [hfind]
  rfl

/-! The fallback scan with an empty stem. -/

theorem containsSub_nil (s : String) : containsSub "" s = true := by
  unfold containsSub
  cases hl : s.toList with
  | nil => rfl
  | cons c rest => rfl

theorem fallbackMatch_empty_stem (tl : String) (row : Row) :
    fallbackMatch "" tl row = (lowerStr row.filename != "") := by
  show (lowerStr row.filename != "" &&
    (lowerStr row.filename == tl || containsSub "" (normKey (lowerStr row.filename)))) =
    (lowerStr row.filename != "")
  rw [containsSub_nil]
  simp [Bool.or_true, Bool.and_true]

theorem find?_congr_pred {α : Type} (p q : α → Bool) (h : ∀ a, p a = q a) :
    ∀ l : List α, l.find? p = l.find? q
  | [] => rfl
  | a :: t => by
    rw [List.find?_cons, List.find?_cons, h a, find?_congr_pred p q h t]

/-- C10: for a catalog with at least one row with a non-empty filename,
`resolve()` on a token whose normalized key is empty (whitespace-only, a
bare `@`, punctuation-only, …) does not return `None`: the empty stem
matches the first such row in the direct fallback scan, and the resolver
returns the URL synthesized from that row. -/
theorem C10_empty_key_resolves (rows : List Row) (r : Row) (token : String)
    (hfind : rows.find? (fun row => lowerStr row.filename != "") = some r)
    (hkey : normKey (preprocessTok token) = "") :
    resolveTok (some rows) token = some (fallbackUrl r) := by
  have hnl : normL (preprocessTok token).toList = [] := normKey_eq_empty_iff.mp hkey
  have hstem : normKey (String.mk (dropExtL (preprocessTok token).toList)) = "" := by
    rw [normKey_eq_empty_iff]
    exact normL_dropExtL_of_nil hnl
  have hhttp : isHttpTok (preprocessTok token) = false := by
    cases hh : isHttpTok (preprocessTok token)
    · rfl
    · exact absurd hkey (normKey_ne_empty_of_http hh)
  unfold resolveTok
  rw [if_neg (fun hc => by rw [hhttp] at hc; exact Bool.noConfusion hc)]
  simp only [Option.getD_some]
  rw [hkey, lookupIdx_buildIndex_empty, hstem, lookupIdx_buildIndex_empty]
  rw [if_neg (fun hc : ("" : String) ≠ "" => hc rfl)]
  rw [find?_congr_pred _ _ (fallbackMatch_empty_stem (lowerStr (preprocessTok token))) rows]
  rw [hfind]

theorem C10_witness :
    ([demoRow].find? (fun row => lowerStr row.filename != "") = some demoRow) ∧
      normKey (preprocessTok " ") = "" ∧
      resolveTok (some [demoRow]) " " = some (fallbackUrl demoRow) ∧
      resolveTok (some [demoRow]) " " ≠ none := by
  have happ := C10_empty_key_resolves [demoRow] demoRow " " (by decide) (by decide)
  refine ⟨by decide, by decide, happ, ?_⟩
  rw [happ]
  exact fun hc => Option.noConfusion hc

end LeadershipButton
